import Mathlib

/-!
Verification of the Shadow workspace-analysis core: the line-oriented
structural scanner, the name-keyed structural diff engine, and the
dependency graph with breadth-first impact analysis.

Rust strings are modelled as lists of characters (`Str`); Rust string
primitives (trim, trim_matches, split_whitespace, find, contains,
starts_with, replace, lines) are given executable models below.
Fallible operations are modelled with Option and Except.  Hash maps keyed
by strings are modelled as association lists with last-write-wins
insertion; hash-map iteration order, unspecified in the source, is the
association-list order of the model.
-/

/-- Rust string slice, modelled as a list of characters.  The source only
handles ASCII text, where byte indices and character indices agree. -/
abbrev Str := List Char

/-- The single-quote character (written via its code point to keep the
source file free of quote-escape sequences). -/
def sqC : Char := Char.ofNat 39

/-- The double-quote character. -/
def dqC : Char := Char.ofNat 34

/-- Whitespace test used by trim and split_whitespace (ASCII fragment of
Rust char::is_whitespace; the scanned sources are ASCII). -/
def isWs (c : Char) : Bool := c = ' ' || c = '\t' || c = '\n' || c = '\r'

/-- Rust str::find for a pattern string: index of the first occurrence. -/
def findSub (needle : Str) : Str → Option Nat
  | [] => if needle = [] then some 0 else none
  | h :: t => if needle <+: (h :: t) then some 0 else (findSub needle t).map (· + 1)

/-- Rust str::trim (remove leading and trailing whitespace). -/
def trimStr (l : Str) : Str :=
  ((l.dropWhile isWs).reverse.dropWhile isWs).reverse

/-- Rust str::trim_matches with a single-character pattern: remove all
leading and trailing occurrences of the character. -/
def trimMatches (c : Char) (l : Str) : Str :=
  ((l.dropWhile (· = c)).reverse.dropWhile (· = c)).reverse

/-- Accumulator loop behind split_whitespace: `acc` is the current word. -/
def splitWsAux : Str → Str → List Str
  | [], acc => if acc = [] then [] else [acc]
  | c :: t, acc =>
    if isWs c then (if acc = [] then splitWsAux t [] else acc :: splitWsAux t [])
    else splitWsAux t (acc ++ [c])

/-- Rust str::split_whitespace collected to a vector: maximal nonempty
runs of non-whitespace characters. -/
def splitWs (l : Str) : List Str := splitWsAux l []

/-- Rust pattern `s.split(c).next()` for a character: the prefix of `s`
before the first occurrence of `c` (the whole of `s` if absent). -/
def takeUntil (c : Char) (l : Str) : Str := l.takeWhile (· ≠ c)

/-- Full split on a character, keeping empty segments (Rust str::split
collected); always returns at least one segment. -/
def splitAllChar (c : Char) : Str → List Str
  | [] => [[]]
  | h :: t =>
    if h = c then [] :: splitAllChar c t
    else
      match splitAllChar c t with
      | [] => [[h]]
      | s :: ss => (h :: s) :: ss

/-- One scanning step of Rust str::replace per unit of fuel: at each
position, either a nonempty occurrence of the needle is consumed and
replaced, or one character is kept.  Every step consumes at least one
character, so fuel equal to the length of the haystack is never
exhausted. -/
def replaceStrF (needle repl : Str) : Nat → Str → Str
  | _, [] => []
  | 0, hay => hay
  | fuel + 1, h :: t =>
    if needle <+: (h :: t) ∧ needle ≠ [] then
      repl ++ replaceStrF needle repl fuel ((h :: t).drop needle.length)
    else
      h :: replaceStrF needle repl fuel t

/-- Rust str::replace for a nonempty needle: replace every
non-overlapping occurrence, scanning left to right.  (The source only
calls this with the needle ".ts".) -/
def replaceStr (needle repl hay : Str) : Str :=
  replaceStrF needle repl hay.length hay

/-- Rust str::lines: split on the newline character, drop a final empty
segment produced by a trailing newline, and strip one trailing carriage
return from each line. -/
def linesOf (s : Str) : List Str :=
  let ps := splitAllChar '\n' s
  let ps := if ps.getLast? = some [] then ps.dropLast else ps
  ps.map (fun l => if l.getLast? = some '\r' then l.dropLast else l)

/-! ## Structural scanner (src/core/ast_diff/languages/ts/mod.rs) -/

/-- AstNode from ast_diff/lib.rs: a labelled span of the file. -/
structure AstNode where
  node_type : Str
  name : Option Str
  start_line : Nat
  end_line : Nat
  children : List AstNode

/-- TypeScriptParser::extract_function_name.  The three Rust branches are
tried in order: leading "function ", leading "export function ", then the
arrow-function assignment pattern (a branch whose guard is only a
containment test, with no required leading token). -/
def extract_function_name (l : Str) : Option Str :=
  let parts := splitWs l
  if "function ".data <+: l ∧ 2 ≤ parts.length then
    some (takeUntil '(' (parts.getD 1 []))
  else if "export function ".data <+: l ∧ 3 ≤ parts.length then
    some (takeUntil '(' (parts.getD 2 []))
  else if " => ".data <:+: l then
    match findSub " = ".data l with
    | some i => (splitWs (trimStr (l.take i))).getLast?
    | none => none
  else none

/-- The scan inside extract_class_name: find the first token equal to
"class" that has a successor token, and return that successor truncated
at a brace and at a space. -/
def classTokenAfter : List Str → Option Str
  | [] => none
  | [_] => none
  | a :: b :: t =>
    if a = "class".data then some (takeUntil ' ' (takeUntil '{' b))
    else classTokenAfter (b :: t)

/-- TypeScriptParser::extract_class_name. -/
def extract_class_name (l : Str) : Option Str :=
  if "class ".data <+: l ∨ "export class ".data <+: l then
    classTokenAfter (splitWs l)
  else none

/-- TypeScriptParser::extract_import_name: module specifier of an import
statement with a from clause, quotes stripped. -/
def extract_import_name (l : Str) : Option Str :=
  if "import ".data <+: l then
    match findSub " from ".data l with
    | some i => some (trimMatches dqC (trimMatches sqC (trimStr (l.drop (i + 6)))))
    | none => none
  else none

/-- A leaf declaration node: start and end line are the matching line. -/
def mkLeaf (ty : Str) (ln : Nat) (n : Str) : AstNode :=
  { node_type := ty, name := some n, start_line := ln, end_line := ln, children := [] }

/-- The children contributed by one (already trimmed) line at line number
`ln`: each of the three pattern families is tested independently, in the
order function, class, import. -/
def childrenOfLine (ln : Nat) (t : Str) : List AstNode :=
  ((extract_function_name t).map (mkLeaf "FunctionDeclaration".data ln)).toList ++
  ((extract_class_name t).map (mkLeaf "ClassDeclaration".data ln)).toList ++
  ((extract_import_name t).map (mkLeaf "ImportDeclaration".data ln)).toList

/-- TypeScriptParser::parse_simple: the Program root spanning all lines,
with one child per pattern match, lines numbered from 1. -/
def parse_simple (content : Str) : AstNode :=
  let ls := linesOf content
  { node_type := "Program".data, name := none, start_line := 1, end_line := ls.length,
    children := (ls.enum.map (fun p => childrenOfLine (p.1 + 1) (trimStr p.2))).join }

/-! ## Structural diff engine (src/core/ast_diff/lib.rs) -/

inductive ChangeType where
  | Added
  | Modified
  | Removed
deriving DecidableEq

structure AstChange where
  change_type : ChangeType
  node_type : Str
  name : Option Str
  line_range : Nat × Nat
  old_content : Option Str
  new_content : Option Str
deriving DecidableEq

/-- Association-list insert with last-write-wins on an existing key,
modelling HashMap::insert (called via collect in diff_nodes). -/
def insertA {α : Type} : List (Str × α) → Str → α → List (Str × α)
  | [], k, v => [(k, v)]
  | (k0, v0) :: t, k, v =>
    if k0 = k then (k, v) :: t else (k0, v0) :: insertA t k v

/-- Association-list lookup, modelling HashMap::get. -/
def lookupA {α : Type} : List (Str × α) → Str → Option α
  | [], _ => none
  | (k0, v0) :: t, k => if k0 = k then some v0 else lookupA t k

/-- The name-keyed lookup of a node list built in diff_nodes: children
without a name are excluded; duplicate names collide, last-inserted wins. -/
def childMap (cs : List AstNode) : List (Str × AstNode) :=
  cs.foldl (fun m c => match c.name with | none => m | some nm => insertA m nm c) []

/-- AstDiffEngine::nodes_differ. -/
def nodes_differ (o n : AstNode) : Prop :=
  o.node_type ≠ n.node_type ∨ o.children.length ≠ n.children.length

instance (o n : AstNode) : Decidable (nodes_differ o n) := by
  unfold nodes_differ; infer_instance

/-- "kind name" summary string used for old_content and new_content. -/
def contentSummary (ty n : Str) : Str := ty ++ [' '] ++ n

/-- One recursion level of AstDiffEngine::diff_nodes, over the children
lists of the two nodes.  The Rust recursion is structural in the matched
subtrees; here the recursion depth is paid for with fuel, and every
theorem below either holds for all fuel or is evaluated at a fuel the
computation never exhausts (a parse_simple tree has depth one, so any
positive fuel is exact for the engine pipeline). -/
def diffChildrenF (edgesFuel : Nat) (ocs ncs : List AstNode) : List AstChange :=
  match edgesFuel with
  | 0 => []
  | fuel + 1 =>
    let oldM := childMap ocs
    let newM := childMap ncs
    let removed := oldM.filterMap (fun p =>
      if (lookupA newM p.1).isSome then none
      else some { change_type := ChangeType.Removed, node_type := p.2.node_type,
                  name := some p.1, line_range := (p.2.start_line, p.2.end_line),
                  old_content := some (contentSummary p.2.node_type p.1),
                  new_content := none })
    let addMod := (newM.map (fun p =>
      match lookupA oldM p.1 with
      | none =>
        [{ change_type := ChangeType.Added, node_type := p.2.node_type,
           name := some p.1, line_range := (p.2.start_line, p.2.end_line),
           old_content := none,
           new_content := some (contentSummary p.2.node_type p.1) }]
      | some oldChild =>
        (if nodes_differ oldChild p.2 then
          [{ change_type := ChangeType.Modified, node_type := p.2.node_type,
             name := some p.1, line_range := (p.2.start_line, p.2.end_line),
             old_content := some (contentSummary oldChild.node_type p.1),
             new_content := some (contentSummary p.2.node_type p.1) }]
         else []) ++ diffChildrenF fuel oldChild.children p.2.children)).join
    removed ++ addMod

/-- Number of nodes of a structural tree; it strictly dominates the
height of the tree. -/
def astSize (n : AstNode) : Nat :=
  1 + (n.children.attach.map (fun c => astSize c.val)).sum
termination_by sizeOf n
decreasing_by
  have h1 : sizeOf c.val < sizeOf n.children := List.sizeOf_lt_of_mem c.property
  have h2 : sizeOf n.children ≤ sizeOf n := by
    cases n; simp only [AstNode.mk.sizeOf_spec]; omega
  omega

/-- AstDiffEngine::diff_nodes on two root nodes.  astSize of the new root
strictly dominates the height of its tree, so this fuel is never
exhausted. -/
def diffNodes (o n : AstNode) : List AstChange :=
  diffChildrenF (astSize n) o.children n.children

/-! ## Path extension (std Path::extension, used by compute_diff and
is_supported_file) -/

/-- std Path::file_name, modelled for relative forward-slash paths: the
last component after dropping empty and current-directory components;
none when nothing remains or the last component is the parent-directory
component. -/
def fileNameOf (p : Str) : Option Str :=
  let comps := (splitAllChar '/' p).filter (fun s => s ≠ [] ∧ s ≠ ['.'])
  match comps.getLast? with
  | none => none
  | some c => if c = "..".data then none else some c

/-- std Path extension of a file name: the portion after the last dot;
none when there is no dot, or when the only dot starts the name (hidden
files such as ".ts" have no extension). -/
def extOfName (name : Str) : Option Str :=
  let ext := (name.reverse.takeWhile (fun c => c ≠ '.')).reverse
  if ext.length = name.length then none
  else if ext.length + 1 = name.length then none
  else some ext

/-- extension().and_then(to_str).unwrap_or("") as used in compute_diff. -/
def pathExtension (p : Str) : Str :=
  ((fileNameOf p).bind extOfName).getD []

/-- The extensions with a registered scanner: AstDiffEngine::new registers
the TypeScript parser for its supported_extensions, and
DependencyGraphBuilder::is_supported_file matches the same four. -/
def registeredExtensions : List Str :=
  ["ts".data, "js".data, "tsx".data, "jsx".data]

/-- Result of a diff request. -/
structure AstDiff where
  file_path : Str
  changes : List AstChange

/-- AstDiffEngine::compute_diff: derive the extension from the path, fail
when no parser is registered for it, otherwise parse both texts and diff.
The TypeScript parser itself never fails. -/
def compute_diff (file_path old_content new_content : Str) : Except Str AstDiff :=
  let extension := pathExtension file_path
  if extension ∈ registeredExtensions then
    Except.ok { file_path := file_path,
                changes := diffNodes (parse_simple old_content) (parse_simple new_content) }
  else
    Except.error ("No parser available for extension: ".data ++ extension)

/-! ## Dependency graph (src/core/dep_graph.rs) -/

structure GraphNode where
  file_path : Str
  imports : List Str
  exports : List Str

inductive RiskLevel where
  | Low
  | Medium
  | High
deriving DecidableEq

structure ImpactAnalysis where
  changed_files : List Str
  impacted_files : List Str
  risk_level : RiskLevel
deriving DecidableEq

/-- DependencyGraphBuilder::resolve_import_path: append ".ts" unless the
specifier already ends in one of the four recognized extensions. -/
def resolve_import_path (p : Str) : Str :=
  if ".ts".data <:+ p ∨ ".js".data <:+ p ∨ ".tsx".data <:+ p ∨ ".jsx".data <:+ p then p
  else p ++ ".ts".data

/-- The import-from clause of extract_imports, on a trimmed line: take
everything after the first " from ", trim whitespace, then strip single
quotes, double quotes and semicolons in that order, and keep the result
only when it starts with a dot. -/
def importFromClause (t : Str) : List Str :=
  if "import ".data <+: t then
    match findSub " from ".data t with
    | some i =>
      let module_name := trimMatches ';' (trimMatches dqC (trimMatches sqC (trimStr (t.drop (i + 6)))))
      if module_name.head? = some '.' then [resolve_import_path module_name] else []
    | none => []
  else []

/-- The require clause of extract_imports, on a trimmed line: the text
between "require(" and the next ")", quotes stripped, kept when it starts
with a dot. -/
def requireClause (t : Str) : List Str :=
  match findSub "require(".data t with
  | some i =>
    let after := t.drop (i + 8)
    match findSub ")".data after with
    | some j =>
      let module_name := trimMatches dqC (trimMatches sqC (after.take j))
      if module_name.head? = some '.' then [resolve_import_path module_name] else []
    | none => []
  | none => []

/-- DependencyGraphBuilder::extract_imports: both clauses are tested on
every trimmed line. -/
def extract_imports (content : Str) : List Str :=
  ((linesOf content).map (fun line =>
    let t := trimStr line
    importFromClause t ++ requireClause t)).join

/-- The token scan of extract_function_name_from_export: the first token
equal to "function" that has a successor yields the successor truncated
at an opening parenthesis. -/
def funcTokenAfter : List Str → Option Str
  | [] => none
  | [_] => none
  | a :: b :: t =>
    if a = "function".data then some (takeUntil '(' b)
    else funcTokenAfter (b :: t)

/-- The token scan of extract_var_name_from_export: the first token among
"const", "let", "var" that has a successor yields the successor truncated
at an equals sign and trimmed. -/
def varTokenAfter : List Str → Option Str
  | [] => none
  | [_] => none
  | a :: b :: t =>
    if a = "const".data ∨ a = "let".data ∨ a = "var".data then
      some (trimStr (takeUntil '=' b))
    else varTokenAfter (b :: t)

/-- The per-line classification of extract_exports: only lines starting
with "export "; first matching containment test wins. -/
def exportOfLine (t : Str) : List Str :=
  if "export ".data <+: t then
    if "function ".data <:+: t then (funcTokenAfter (splitWs t)).toList
    else if "class ".data <:+: t then (classTokenAfter (splitWs t)).toList
    else if "const ".data <:+: t ∨ "let ".data <:+: t ∨ "var ".data <:+: t then
      (varTokenAfter (splitWs t)).toList
    else []
  else []

/-- DependencyGraphBuilder::extract_exports. -/
def extract_exports (content : Str) : List Str :=
  ((linesOf content).map (fun line => exportOfLine (trimStr line))).join

/-- DependencyGraphBuilder::is_supported_file: the path extension is one
of the four recognized ones. -/
def is_supported_file (p : Str) : Bool :=
  match (fileNameOf p).bind extOfName with
  | some e => decide (e ∈ registeredExtensions)
  | none => false

/-- DependencyGraphBuilder::analyze_file on a readable file: register a
node keyed by the (already workspace-relative) path. -/
def analyze_file_node (path content : Str) : GraphNode :=
  { file_path := path, imports := extract_imports content, exports := extract_exports content }

/-- DependencyGraphBuilder::scan_workspace, with the directory walk
flattened to a list of (relative path, content) entries; an unreadable
file is an entry with no content.  Unsupported files are skipped without
being read; reading a supported file propagates failure with the Rust
question-mark operator, aborting the scan. -/
def scan_workspace (acc : List (Str × GraphNode)) :
    List (Str × Option Str) → Except Unit (List (Str × GraphNode))
  | [] => Except.ok acc
  | (p, c) :: rest =>
    if is_supported_file p then
      match c with
      | none => Except.error ()
      | some content => scan_workspace (insertA acc p (analyze_file_node p content)) rest
    else scan_workspace acc rest

/-- DependencyGraphBuilder::resolve_import_to_file: first node key that
ends with the specifier, equals it, or agrees with it after deleting
every occurrence of ".ts" from both. -/
def resolve_import_to_file (nodes : List (Str × GraphNode)) (import_path : Str) : Option Str :=
  ((nodes.map Prod.fst).find? (fun file_path =>
    decide (import_path <:+ file_path) || decide (file_path = import_path) ||
    decide (replaceStr ".ts".data [] file_path = replaceStr ".ts".data [] import_path)))

/-- DependencyGraphBuilder::build_edges: one adjacency entry per node,
keeping only resolvable imports. -/
def build_edges (nodes : List (Str × GraphNode)) : List (Str × List Str) :=
  nodes.map (fun p => (p.1, p.2.imports.filterMap (resolve_import_to_file nodes)))

/-- DependencyGraphBuilder::find_dependents: every edge key whose
dependency list contains the file; none when there are no dependents. -/
def find_dependents (edges : List (Str × List Str)) (file : Str) : Option (List Str) :=
  let dependents := edges.filterMap (fun e => if file ∈ e.2 then some e.1 else none)
  if dependents = [] then none else some dependents

/-- The inner for-loop of the BFS in analyze_impact: fold the dependents
in order, inserting each one not yet reached into the reached set and
recording it for the queue. -/
def addNew (start : List Str × List Str) (deps : List Str) : List Str × List Str :=
  deps.foldl (fun acc d => if d ∈ acc.1 then acc else (d :: acc.1, acc.2 ++ [d])) start

/-- The BFS while-loop of analyze_impact: pop the queue front, push every
newly reached dependent to the back.  One unit of fuel pays for one pop;
the boolean reports whether the queue was emptied within the fuel (the
sufficiency theorem below shows the fuel used by analyze_impact always
empties it). -/
def bfsAux (edges : List (Str × List Str)) :
    Nat → List Str → List Str → List Str × Bool
  | 0, queue, reached => (reached, queue.isEmpty)
  | _ + 1, [], reached => (reached, true)
  | fuel + 1, current :: rest, reached =>
    match find_dependents edges current with
    | none => bfsAux edges fuel rest reached
    | some deps =>
      let step := addNew (reached, []) deps
      bfsAux edges fuel (rest ++ step.2) step.1

/-- The seeding loop of analyze_impact: insert every changed file into
the reached set (HashSet semantics: duplicates collapse). -/
def seedReached (changed : List Str) : List Str :=
  changed.foldl (fun s f => if f ∈ s then s else f :: s) []

/-- The reached set computed by analyze_impact for a changed-file list:
queue seeded with the list as given, reached set with its members.  The
fuel covers the initial queue plus one discovery per edge entry. -/
def reachedSet (edges : List (Str × List Str)) (changed : List Str) : List Str :=
  (bfsAux edges (changed.length + edges.length) changed (seedReached changed)).1

/-- DependencyGraphBuilder::calculate_risk_level: the range match on
changed_count + impacted_count. -/
def calculate_risk_level (changed_count impacted_count : Nat) : RiskLevel :=
  if changed_count + impacted_count ≤ 2 then RiskLevel.Low
  else if changed_count + impacted_count ≤ 7 then RiskLevel.Medium
  else RiskLevel.High

/-- DependencyGraphBuilder::analyze_impact: BFS reverse reachability from
the changed files, then drop every member of the changed list from the
result and classify the blast radius. -/
def analyze_impact (edges : List (Str × List Str)) (changed : List Str) : ImpactAnalysis :=
  let reached := reachedSet edges changed
  let impacted_files := reached.filter (fun f => f ∉ changed)
  { changed_files := changed, impacted_files := impacted_files,
    risk_level := calculate_risk_level changed.length impacted_files.length }

/-! ## Concrete scenarios -/

/-- Content of a.ts in the specification scenario:
"export function foo(){}". -/
def c1ContentA : Str := "export function foo()\x7b\x7d".data

/-- Content of b.ts in the specification scenario (single line), with the
module specifier in single quotes:
"import { foo } from her-quote ./a her-quote ; export function bar(){ foo(); }". -/
def c1ContentB : Str :=
  "import \x7b foo \x7d from ".data ++ [sqC] ++ "./a".data ++ [sqC] ++
  "; export function bar()\x7b foo(); \x7d".data

/-- The scenario workspace flattened by the directory walk. -/
def c1Workspace : List (Str × Option Str) :=
  [("a.ts".data, some c1ContentA), ("b.ts".data, some c1ContentB)]

/-- The node set the scan produces for the scenario workspace. -/
def c1Nodes : List (Str × GraphNode) :=
  ((scan_workspace [] c1Workspace).toOption).getD []

/-- A workspace whose second eligible file is unreadable. -/
def c2Workspace : List (Str × Option Str) :=
  [("a.ts".data, some c1ContentA), ("b.ts".data, none), ("c.ts".data, some c1ContentA)]

/-- A dependency cycle: a.ts and b.ts depend on each other. -/
def cycleEdges : List (Str × List Str) :=
  [("a.ts".data, ["b.ts".data]), ("b.ts".data, ["a.ts".data])]

/-- A single reverse-dependency edge: b.ts depends on a.ts. -/
def lineEdges : List (Str × List Str) :=
  [("b.ts".data, ["a.ts".data])]

/-! ## Reverse reachability, abstractly -/

/-- Transitive reverse-dependency reachability from a seed set: the
closure the BFS of analyze_impact computes.  A step follows one edge
entry backwards: from a reached file to a file whose dependency list
contains it. -/
inductive Reach (edges : List (Str × List Str)) (seed : List Str) : Str → Prop
  | base {x : Str} : x ∈ seed → Reach edges seed x
  | step {c d : Str} {dl : List Str} :
      Reach edges seed c → (d, dl) ∈ edges → c ∈ dl → Reach edges seed d

/-- Number of edge keys not yet reached: the termination measure of the
BFS loop. -/
def keysNotIn (edges : List (Str × List Str)) (reached : List Str) : Nat :=
  ((edges.map Prod.fst).toFinset.filter (fun k => k ∉ reached)).card

/-! ## Theory of the BFS loop -/

theorem find_dependents_none {edges : List (Str × List Str)} {cur : Str}
    (h : find_dependents edges cur = none) :
    ∀ d dl, (d, dl) ∈ edges → cur ∉ dl := by
  intro d dl hm hcur
  unfold find_dependents at h
  by_cases hd : edges.filterMap (fun e => if cur ∈ e.2 then some e.1 else none) = []
  · have : d ∈ edges.filterMap (fun e => if cur ∈ e.2 then some e.1 else none) :=
      List.mem_filterMap.mpr ⟨(d, dl), hm, by simp [hcur]⟩
    rw [hd] at this
    cases this
  · rw [if_neg hd] at h
    cases h

theorem find_dependents_some {edges : List (Str × List Str)} {cur : Str} {deps : List Str}
    (h : find_dependents edges cur = some deps) :
    ∀ d, d ∈ deps ↔ ∃ dl, (d, dl) ∈ edges ∧ cur ∈ dl := by
  intro d
  unfold find_dependents at h
  by_cases hd : edges.filterMap (fun e => if cur ∈ e.2 then some e.1 else none) = []
  · simp only [hd, if_true] at h
    cases h
  · simp only [hd, if_false, Option.some.injEq] at h
    subst h
    rw [List.mem_filterMap]
    constructor
    · rintro ⟨⟨k, dl⟩, hm, hk⟩
      by_cases hcur : cur ∈ dl
      · simp only [hcur, if_true, Option.some.injEq] at hk
        exact ⟨dl, hk ▸ hm, hcur⟩
      · simp [hcur] at hk
    · rintro ⟨dl, hm, hcur⟩
      exact ⟨(d, dl), hm, by simp [hcur]⟩

theorem addNew_fst_mono {deps : List Str} {start : List Str × List Str} {x : Str}
    (h : x ∈ start.1) : x ∈ (addNew start deps).1 := by
  induction deps generalizing start with
  | nil => exact h
  | cons d ds ih =>
    unfold addNew at *
    simp only [List.foldl_cons]
    by_cases hd : d ∈ start.1
    · simp only [hd, if_true]
      exact ih h
    · simp only [hd, if_false]
      exact ih (List.mem_cons_of_mem _ h)

theorem addNew_fst_sub {deps : List Str} {start : List Str × List Str} {x : Str}
    (h : x ∈ (addNew start deps).1) : x ∈ start.1 ∨ x ∈ deps := by
  induction deps generalizing start with
  | nil => exact Or.inl h
  | cons d ds ih =>
    unfold addNew at *
    simp only [List.foldl_cons] at h
    by_cases hd : d ∈ start.1
    · simp only [hd, if_true] at h
      rcases ih h with h1 | h1
      · exact Or.inl h1
      · exact Or.inr (List.mem_cons_of_mem _ h1)
    · simp only [hd, if_false] at h
      rcases ih h with h1 | h1
      · rcases List.mem_cons.mp h1 with h2 | h2
        · exact Or.inr (h2 ▸ List.mem_cons_self _ _)
        · exact Or.inl h2
      · exact Or.inr (List.mem_cons_of_mem _ h1)

theorem addNew_deps_fst {deps : List Str} {start : List Str × List Str} {d : Str}
    (h : d ∈ deps) : d ∈ (addNew start deps).1 := by
  induction deps generalizing start with
  | nil => cases h
  | cons e ds ih =>
    unfold addNew at *
    simp only [List.foldl_cons]
    rcases List.mem_cons.mp h with h1 | h1
    · subst h1
      by_cases hd : d ∈ start.1
      · simp only [hd, if_true]
        exact addNew_fst_mono hd
      · simp only [hd, if_false]
        exact addNew_fst_mono (List.mem_cons_self _ _)
    · by_cases hd : e ∈ start.1 <;> simp only [hd, if_true, if_false] <;> exact ih h1

theorem addNew_snd_mono {deps : List Str} {start : List Str × List Str} {x : Str}
    (h : x ∈ start.2) : x ∈ (addNew start deps).2 := by
  induction deps generalizing start with
  | nil => exact h
  | cons d ds ih =>
    unfold addNew at *
    simp only [List.foldl_cons]
    by_cases hd : d ∈ start.1
    · simp only [hd, if_true]
      exact ih h
    · simp only [hd, if_false]
      exact ih (List.mem_append_left _ h)

theorem addNew_snd_sub {deps : List Str} {start : List Str × List Str} {x : Str}
    (h : x ∈ (addNew start deps).2) : x ∈ start.2 ∨ x ∈ (addNew start deps).1 := by
  induction deps generalizing start with
  | nil => exact Or.inl h
  | cons d ds ih =>
    unfold addNew at *
    simp only [List.foldl_cons] at h ⊢
    by_cases hd : d ∈ start.1
    · simp only [hd, if_true] at h ⊢
      exact ih h
    · simp only [hd, if_false] at h ⊢
      rcases ih h with h1 | h1
      · rcases List.mem_append.mp h1 with h2 | h2
        · exact Or.inl h2
        · refine Or.inr ?_
          have : x = d := by simpa using h2
          exact addNew_fst_mono (this ▸ List.mem_cons_self _ _)
      · exact Or.inr h1

theorem addNew_fst_to_snd {deps : List Str} {start : List Str × List Str} {x : Str}
    (h : x ∈ (addNew start deps).1) : x ∈ start.1 ∨ x ∈ (addNew start deps).2 := by
  induction deps generalizing start with
  | nil => exact Or.inl h
  | cons d ds ih =>
    unfold addNew at *
    simp only [List.foldl_cons] at h ⊢
    by_cases hd : d ∈ start.1
    · simp only [hd, if_true] at h ⊢
      exact ih h
    · simp only [hd, if_false] at h ⊢
      rcases ih h with h1 | h1
      · rcases List.mem_cons.mp h1 with h2 | h2
        · refine Or.inr ?_
          exact addNew_snd_mono (List.mem_append_right _ (by simp [h2]))
        · exact Or.inl h2
      · exact Or.inr h1

theorem addNew_card (edges : List (Str × List Str)) (deps : List Str)
    (start : List Str × List Str)
    (hkeys : ∀ d ∈ deps, d ∈ edges.map Prod.fst) :
    keysNotIn edges (addNew start deps).1 + (addNew start deps).2.length ≤
      keysNotIn edges start.1 + start.2.length := by
  induction deps generalizing start with
  | nil => exact Nat.le_refl _
  | cons d ds ih =>
    unfold addNew at *
    simp only [List.foldl_cons]
    by_cases hd : d ∈ start.1
    · simp only [hd, if_true]
      exact ih start (fun e he => hkeys e (List.mem_cons_of_mem _ he))
    · simp only [hd, if_false]
      have hstep := ih (d :: start.1, start.2 ++ [d])
        (fun e he => hkeys e (List.mem_cons_of_mem _ he))
      simp only [List.length_append, List.length_cons, List.length_nil] at hstep
      have hdk : d ∈ (edges.map Prod.fst).toFinset :=
        List.mem_toFinset.mpr (hkeys d (List.mem_cons_self _ _))
      have hdf : d ∈ (edges.map Prod.fst).toFinset.filter (fun k => k ∉ start.1) :=
        Finset.mem_filter.mpr ⟨hdk, hd⟩
      have hsub : (edges.map Prod.fst).toFinset.filter (fun k => k ∉ d :: start.1) ⊆
          ((edges.map Prod.fst).toFinset.filter (fun k => k ∉ start.1)).erase d := by
        intro x hx
        rcases Finset.mem_filter.mp hx with ⟨hxk, hxn⟩
        rw [List.mem_cons] at hxn
        push_neg at hxn
        exact Finset.mem_erase.mpr ⟨hxn.1, Finset.mem_filter.mpr ⟨hxk, hxn.2⟩⟩
      have hcard : keysNotIn edges (d :: start.1) + 1 ≤ keysNotIn edges start.1 := by
        unfold keysNotIn
        have h1 := Finset.card_le_card hsub
        rw [Finset.card_erase_of_mem hdf] at h1
        have h2 : 1 ≤ ((edges.map Prod.fst).toFinset.filter (fun k => k ∉ start.1)).card :=
          Finset.card_pos.mpr ⟨d, hdf⟩
        omega
      unfold keysNotIn at *
      omega

theorem bfsAux_empties (edges : List (Str × List Str)) :
    ∀ fuel queue reached, queue.length + keysNotIn edges reached ≤ fuel →
      (bfsAux edges fuel queue reached).2 = true := by
  intro fuel
  induction fuel with
  | zero =>
    intro queue reached h
    have : queue.length = 0 := by omega
    rw [List.length_eq_zero] at this
    subst this
    rfl
  | succ fuel ih =>
    intro queue reached h
    match queue with
    | [] => rfl
    | current :: rest =>
      cases hfd : find_dependents edges current with
      | none =>
        simp only [bfsAux, hfd]
        apply ih
        simp only [List.length_cons] at h
        omega
      | some deps =>
        simp only [bfsAux, hfd]
        have hkeys : ∀ d ∈ deps, d ∈ edges.map Prod.fst := by
          intro d hd
          rcases (find_dependents_some hfd d).mp hd with ⟨dl, hm, _⟩
          exact List.mem_map.mpr ⟨(d, dl), hm, rfl⟩
        have hcard := addNew_card edges deps (reached, []) hkeys
        simp only [List.length_nil] at hcard
        apply ih
        simp only [List.length_append, List.length_cons] at h ⊢
        omega

theorem mem_foldl_seed {changed acc : List Str} {x : Str} :
    x ∈ changed.foldl (fun s f => if f ∈ s then s else f :: s) acc ↔ x ∈ acc ∨ x ∈ changed := by
  induction changed generalizing acc with
  | nil => simp
  | cons c cs ih =>
    simp only [List.foldl_cons]
    by_cases hc : c ∈ acc
    · simp only [hc, if_true, ih, List.mem_cons]
      constructor
      · rintro (h | h)
        · exact Or.inl h
        · exact Or.inr (Or.inr h)
      · rintro (h | h | h)
        · exact Or.inl h
        · exact Or.inl (h ▸ hc)
        · exact Or.inr h
    · simp only [hc, if_false, ih, List.mem_cons]
      tauto

theorem mem_seedReached {changed : List Str} {x : Str} :
    x ∈ seedReached changed ↔ x ∈ changed := by
  unfold seedReached
  rw [mem_foldl_seed]
  simp

theorem bfsAux_reached_mono (edges : List (Str × List Str)) :
    ∀ fuel queue reached x, x ∈ reached → x ∈ (bfsAux edges fuel queue reached).1 := by
  intro fuel
  induction fuel with
  | zero => intro queue reached x h; exact h
  | succ fuel ih =>
    intro queue reached x h
    match queue with
    | [] => exact h
    | current :: rest =>
      cases hfd : find_dependents edges current with
      | none =>
        simp only [bfsAux, hfd]
        exact ih _ _ _ h
      | some deps =>
        simp only [bfsAux, hfd]
        exact ih _ _ _ (addNew_fst_mono h)

theorem bfsAux_sound (edges : List (Str × List Str)) (seed : List Str) :
    ∀ fuel queue reached,
      (∀ x ∈ reached, Reach edges seed x) → (∀ x ∈ queue, x ∈ reached) →
      ∀ x ∈ (bfsAux edges fuel queue reached).1, Reach edges seed x := by
  intro fuel
  induction fuel with
  | zero => intro queue reached hr _ x hx; exact hr x hx
  | succ fuel ih =>
    intro queue reached hr hq
    match queue with
    | [] => exact fun x hx => hr x hx
    | current :: rest =>
      cases hfd : find_dependents edges current with
      | none =>
        simp only [bfsAux, hfd]
        exact ih _ _ hr (fun x hx => hq x (List.mem_cons_of_mem _ hx))
      | some deps =>
        simp only [bfsAux, hfd]
        have hr2 : ∀ x ∈ (addNew (reached, []) deps).1, Reach edges seed x := by
          intro x hx
          rcases addNew_fst_sub hx with h1 | h1
          · exact hr x h1
          · rcases (find_dependents_some hfd x).mp h1 with ⟨dl, hm, hc⟩
            exact Reach.step (hr current (hq current (List.mem_cons_self _ _))) hm hc
        apply ih _ _ hr2
        intro x hx
        rcases List.mem_append.mp hx with h1 | h1
        · exact addNew_fst_mono (hq x (List.mem_cons_of_mem _ h1))
        · rcases addNew_snd_sub h1 with h2 | h2
          · cases h2
          · exact h2

theorem bfsAux_closed (edges : List (Str × List Str)) :
    ∀ fuel queue reached,
      (bfsAux edges fuel queue reached).2 = true →
      (∀ x ∈ reached, x ∈ queue ∨ ∀ d dl, (d, dl) ∈ edges → x ∈ dl → d ∈ reached) →
      ∀ x ∈ (bfsAux edges fuel queue reached).1, ∀ d dl, (d, dl) ∈ edges → x ∈ dl →
        d ∈ (bfsAux edges fuel queue reached).1 := by
  intro fuel
  induction fuel with
  | zero =>
    intro queue reached hsnd hinv x hx d dl hm hd
    have hq : queue = [] := by
      cases queue with
      | nil => rfl
      | cons a t => cases hsnd
    subst hq
    rcases hinv x hx with h1 | h1
    · cases h1
    · exact h1 d dl hm hd
  | succ fuel ih =>
    intro queue reached hsnd hinv
    match queue with
    | [] =>
      intro x hx d dl hm hd
      rcases hinv x hx with h1 | h1
      · cases h1
      · exact h1 d dl hm hd
    | current :: rest =>
      cases hfd : find_dependents edges current with
      | none =>
        simp only [bfsAux, hfd] at hsnd ⊢
        apply ih _ _ hsnd
        intro x hx
        rcases hinv x hx with h1 | h1
        · rcases List.mem_cons.mp h1 with h2 | h2
          · subst h2
            exact Or.inr (fun d dl hm hd => absurd hd (find_dependents_none hfd d dl hm))
          · exact Or.inl h2
        · exact Or.inr h1
      | some deps =>
        simp only [bfsAux, hfd] at hsnd ⊢
        apply ih _ _ hsnd
        intro x hx
        rcases addNew_fst_to_snd hx with h1 | h1
        · rcases hinv x h1 with h2 | h2
          · rcases List.mem_cons.mp h2 with h3 | h3
            · subst h3
              refine Or.inr (fun d dl hm hd => ?_)
              exact addNew_deps_fst ((find_dependents_some hfd d).mpr ⟨dl, hm, hd⟩)
            · exact Or.inl (List.mem_append_left _ h3)
          · exact Or.inr (fun d dl hm hd => addNew_fst_mono (h2 d dl hm hd))
        · exact Or.inl (List.mem_append_right _ h1)

theorem keysNotIn_le (edges : List (Str × List Str)) (reached : List Str) :
    keysNotIn edges reached ≤ edges.length := by
  unfold keysNotIn
  calc ((edges.map Prod.fst).toFinset.filter (fun k => k ∉ reached)).card
      ≤ (edges.map Prod.fst).toFinset.card := Finset.card_filter_le _ _
    _ ≤ (edges.map Prod.fst).length := List.toFinset_card_le _
    _ = edges.length := List.length_map _ _

theorem reachedSet_empties (edges : List (Str × List Str)) (changed : List Str) :
    (bfsAux edges (changed.length + edges.length) changed (seedReached changed)).2 = true := by
  apply bfsAux_empties
  have := keysNotIn_le edges (seedReached changed)
  omega

theorem reach_subset_reachedSet (edges : List (Str × List Str)) (changed : List Str) :
    ∀ x, Reach edges changed x → x ∈ reachedSet edges changed := by
  have hsnd := reachedSet_empties edges changed
  have hclosed := bfsAux_closed edges (changed.length + edges.length) changed
    (seedReached changed) hsnd
    (fun x hx => Or.inl (mem_seedReached.mp hx))
  have hseed : ∀ x ∈ changed, x ∈ reachedSet edges changed := fun x hx =>
    bfsAux_reached_mono edges _ _ _ _ (mem_seedReached.mpr hx)
  intro x hr
  induction hr with
  | base h => exact hseed _ h
  | step hr hm hd ih => exact hclosed _ ih _ _ hm hd

theorem mem_reachedSet_iff (edges : List (Str × List Str)) (changed : List Str) (x : Str) :
    x ∈ reachedSet edges changed ↔ Reach edges changed x := by
  constructor
  · intro hx
    exact bfsAux_sound edges changed _ _ _
      (fun y hy => Reach.base (mem_seedReached.mp hy))
      (fun y hy => mem_seedReached.mpr hy) x hx
  · exact reach_subset_reachedSet edges changed x

theorem reach_mono (edges : List (Str × List Str)) {A B : List Str}
    (hAB : ∀ f ∈ A, f ∈ B) : ∀ x, Reach edges A x → Reach edges B x := by
  intro x hr
  induction hr with
  | base h => exact Reach.base (hAB _ h)
  | step hr hm hd ih => exact Reach.step ih hm hd

theorem bfsAux_fst_keys (edges : List (Str × List Str)) (S : List Str) :
    ∀ fuel queue reached,
      (∀ y ∈ reached, y ∈ S ∨ y ∈ edges.map Prod.fst) →
      ∀ y ∈ (bfsAux edges fuel queue reached).1, y ∈ S ∨ y ∈ edges.map Prod.fst := by
  intro fuel
  induction fuel with
  | zero => intro queue reached h y hy; exact h y hy
  | succ fuel ih =>
    intro queue reached h
    match queue with
    | [] => exact h
    | current :: rest =>
      cases hfd : find_dependents edges current with
      | none =>
        simp only [bfsAux, hfd]
        exact ih _ _ h
      | some deps =>
        simp only [bfsAux, hfd]
        apply ih
        intro y hy
        rcases addNew_fst_sub hy with h1 | h1
        · exact h y h1
        · rcases (find_dependents_some hfd y).mp h1 with ⟨dl, hm, _⟩
          exact Or.inr (List.mem_map.mpr ⟨(y, dl), hm, rfl⟩)

/-! ## Theory of the name-keyed child map -/

/-- Unique keys: the invariant HashMap contents satisfy, maintained by
the association-list model of insertion. -/
def UKeys {α : Type} (m : List (Str × α)) : Prop := (m.map Prod.fst).Nodup

theorem keys_insertA_sub {α : Type} {m : List (Str × α)} {k0 k : Str} {v0 : α}
    (h : k ∈ (insertA m k0 v0).map Prod.fst) : k = k0 ∨ k ∈ m.map Prod.fst := by
  induction m with
  | nil =>
    simp only [insertA, List.map_cons, List.map_nil, List.mem_singleton] at h
    exact Or.inl h
  | cons e t ih =>
    obtain ⟨a, b⟩ := e
    simp only [insertA] at h
    by_cases ha : a = k0
    · rw [if_pos ha, List.map_cons, List.mem_cons] at h
      rcases h with h | h
      · exact Or.inl h
      · exact Or.inr (by rw [List.map_cons]; exact List.mem_cons_of_mem _ h)
    · rw [if_neg ha, List.map_cons, List.mem_cons] at h
      rcases h with h | h
      · exact Or.inr (by rw [List.map_cons]; exact h ▸ List.mem_cons_self _ _)
      · rcases ih h with h1 | h1
        · exact Or.inl h1
        · exact Or.inr (by rw [List.map_cons]; exact List.mem_cons_of_mem _ h1)

theorem uKeys_insertA {α : Type} {m : List (Str × α)} {k : Str} {v : α}
    (h : UKeys m) : UKeys (insertA m k v) := by
  induction m with
  | nil => simp [UKeys, insertA]
  | cons e t ih =>
    obtain ⟨a, b⟩ := e
    unfold UKeys at h ⊢
    simp only [List.map_cons, List.nodup_cons] at h
    by_cases ha : a = k
    · simp only [insertA, ha, if_true, List.map_cons, List.nodup_cons]
      exact ⟨ha ▸ h.1, h.2⟩
    · simp only [insertA, ha, if_false, List.map_cons, List.nodup_cons]
      refine ⟨fun hmem => ?_, ih h.2⟩
      rcases keys_insertA_sub hmem with h1 | h1
      · exact ha h1
      · exact h.1 h1

theorem uKeys_childMap_aux (cs : List AstNode) :
    ∀ acc : List (Str × AstNode), UKeys acc →
      UKeys (cs.foldl (fun m c => match c.name with | none => m | some nm => insertA m nm c) acc) := by
  induction cs with
  | nil => intro acc h; exact h
  | cons c t ih =>
    intro acc h
    simp only [List.foldl_cons]
    cases c.name with
    | none => exact ih acc h
    | some nm => exact ih _ (uKeys_insertA h)

theorem uKeys_childMap (cs : List AstNode) : UKeys (childMap cs) := by
  unfold childMap
  exact uKeys_childMap_aux cs [] (by simp [UKeys])

theorem lookupA_eq_of_mem {α : Type} {m : List (Str × α)} {k : Str} {v : α}
    (hu : UKeys m) (h : (k, v) ∈ m) : lookupA m k = some v := by
  induction m with
  | nil => cases h
  | cons e t ih =>
    obtain ⟨a, b⟩ := e
    unfold UKeys at hu
    simp only [List.map_cons, List.nodup_cons] at hu
    rcases List.mem_cons.mp h with h1 | h1
    · injection h1 with h1a h1b
      simp only [lookupA]
      rw [if_pos h1a.symm]
      exact congrArg some h1b.symm
    · have hak : a ≠ k := by
        intro hak
        subst hak
        exact hu.1 (List.mem_map.mpr ⟨(a, v), h1, rfl⟩)
      simp only [lookupA, if_neg hak]
      exact ih hu.2 h1

theorem diffChildrenF_self : ∀ (fuel : Nat) (cs : List AstNode),
    diffChildrenF fuel cs cs = [] := by
  intro fuel
  induction fuel with
  | zero => intro cs; rfl
  | succ fuel ih =>
    intro cs
    simp only [diffChildrenF]
    rw [List.append_eq_nil]
    constructor
    · rw [List.filterMap_eq_nil]
      intro p hp
      have hm : (p.1, p.2) ∈ childMap cs := by rw [Prod.mk.eta]; exact hp
      have : lookupA (childMap cs) p.1 = some p.2 :=
        lookupA_eq_of_mem (uKeys_childMap cs) hm
      simp [this]
    · rw [List.join_eq_nil]
      intro l hl
      rcases List.mem_map.mp hl with ⟨p, hp, rfl⟩
      have hm : (p.1, p.2) ∈ childMap cs := by rw [Prod.mk.eta]; exact hp
      have hlk : lookupA (childMap cs) p.1 = some p.2 :=
        lookupA_eq_of_mem (uKeys_childMap cs) hm
      rw [hlk]
      have hnd : ¬ nodes_differ p.2 p.2 := by simp [nodes_differ]
      simp only [hnd, if_false, List.nil_append]
      exact ih _

/-! ## Pattern-family exclusivity -/

theorem findSub_isInfix {needle l : Str} {i : Nat}
    (h : findSub needle l = some i) : needle <:+: l := by
  induction l generalizing i with
  | nil =>
    unfold findSub at h
    by_cases hn : needle = []
    · subst hn
      exact List.nil_infix
    · rw [if_neg hn] at h
      cases h
  | cons c t ih =>
    unfold findSub at h
    by_cases hp : needle <+: (c :: t)
    · exact hp.isInfix
    · rw [if_neg hp] at h
      rcases Option.map_eq_some'.mp h with ⟨j, hj, _⟩
      rcases ih hj with ⟨s, u, hsu⟩
      exact ⟨c :: s, u, by rw [← hsu]; rfl⟩

theorem not_pre_both {p q l : Str} (h1 : ¬ p <+: q) (h2 : ¬ q <+: p)
    (hp : p <+: l) (hq : q <+: l) : False := by
  rcases hp with ⟨t1, rfl⟩
  rcases hq with ⟨t2, he⟩
  rcases List.append_eq_append_iff.mp he with ⟨a, ha, _⟩ | ⟨c, hc, _⟩
  · exact h2 ⟨a, ha.symm⟩
  · exact h1 ⟨c, hc.symm⟩

theorem efn_cases {l n : Str} (h : extract_function_name l = some n) :
    "function ".data <+: l ∨ "export function ".data <+: l ∨
      (" = ".data <:+: l ∧ " => ".data <:+: l) := by
  simp only [extract_function_name] at h
  by_cases h1 : "function ".data <+: l ∧ 2 ≤ (splitWs l).length
  · exact Or.inl h1.1
  · rw [if_neg h1] at h
    by_cases h2 : "export function ".data <+: l ∧ 3 ≤ (splitWs l).length
    · exact Or.inr (Or.inl h2.1)
    · rw [if_neg h2] at h
      by_cases h3 : " => ".data <:+: l
      · rw [if_pos h3] at h
        cases hf : findSub " = ".data l with
        | none => rw [hf] at h; cases h
        | some i => exact Or.inr (Or.inr ⟨findSub_isInfix hf, h3⟩)
      · rw [if_neg h3] at h
        cases h

theorem ecn_cases {l n : Str} (h : extract_class_name l = some n) :
    "class ".data <+: l ∨ "export class ".data <+: l := by
  simp only [extract_class_name] at h
  by_cases h1 : "class ".data <+: l ∨ "export class ".data <+: l
  · exact h1
  · rw [if_neg h1] at h
    cases h

theorem ein_cases {l n : Str} (h : extract_import_name l = some n) :
    "import ".data <+: l := by
  simp only [extract_import_name] at h
  by_cases h1 : "import ".data <+: l
  · exact h1
  · rw [if_neg h1] at h
    cases h

theorem fc_excl {l nf nc : Str} (harrow : ¬(" = ".data <:+: l ∧ " => ".data <:+: l))
    (hf : extract_function_name l = some nf) (hc : extract_class_name l = some nc) :
    False := by
  rcases efn_cases hf with h1 | h1 | h1
  · rcases ecn_cases hc with h2 | h2
    · exact not_pre_both (by decide) (by decide) h1 h2
    · exact not_pre_both (by decide) (by decide) h1 h2
  · rcases ecn_cases hc with h2 | h2
    · exact not_pre_both (by decide) (by decide) h1 h2
    · exact not_pre_both (by decide) (by decide) h1 h2
  · exact harrow h1

theorem fi_excl {l nf ni : Str} (harrow : ¬(" = ".data <:+: l ∧ " => ".data <:+: l))
    (hf : extract_function_name l = some nf) (hi : extract_import_name l = some ni) :
    False := by
  have h2 := ein_cases hi
  rcases efn_cases hf with h1 | h1 | h1
  · exact not_pre_both (by decide) (by decide) h1 h2
  · exact not_pre_both (by decide) (by decide) h1 h2
  · exact harrow h1

theorem ci_excl {l nc ni : Str} (hc : extract_class_name l = some nc)
    (hi : extract_import_name l = some ni) : False := by
  have h2 := ein_cases hi
  rcases ecn_cases hc with h1 | h1
  · exact not_pre_both (by decide) (by decide) h1 h2
  · exact not_pre_both (by decide) (by decide) h1 h2

/-! ## Theory of path extensions -/

theorem splitAllChar_ne_nil (c : Char) (l : Str) : splitAllChar c l ≠ [] := by
  induction l with
  | nil => simp [splitAllChar]
  | cons a t ih =>
    simp only [splitAllChar]
    by_cases ha : a = c
    · simp [ha]
    · rw [if_neg ha]
      cases hs : splitAllChar c t with
      | nil => exact absurd hs ih
      | cons s ss => simp

theorem splitAllChar_snoc (c a : Char) (l : Str) :
    splitAllChar c (l ++ [a]) =
      if a = c then splitAllChar c l ++ [[]]
      else (splitAllChar c l).dropLast ++ [(splitAllChar c l).getLastD [] ++ [a]] := by
  induction l with
  | nil =>
    by_cases ha : a = c
    · rw [if_pos ha]
      simp [splitAllChar, ha]
    · rw [if_neg ha]
      simp [splitAllChar, ha]
  | cons b t ih =>
    have hstep : ∀ u : Str, splitAllChar c (b :: u) =
        if b = c then [] :: splitAllChar c u
        else match splitAllChar c u with
          | [] => [[b]]
          | s :: ss => (b :: s) :: ss := fun u => rfl
    rw [List.cons_append, hstep, hstep, ih]
    obtain ⟨s, ss, hs⟩ : ∃ s ss, splitAllChar c t = s :: ss := by
      cases hq : splitAllChar c t with
      | nil => exact absurd hq (splitAllChar_ne_nil c t)
      | cons s ss => exact ⟨s, ss, rfl⟩
    rw [hs]
    by_cases hb : b = c
    · rw [if_pos hb, if_pos hb]
      by_cases ha : a = c
      · rw [if_pos ha, if_pos ha]
        simp
      · rw [if_neg ha, if_neg ha]
        cases ss with
        | nil => simp
        | cons y ys => simp
    · rw [if_neg hb, if_neg hb]
      by_cases ha : a = c
      · rw [if_pos ha, if_pos ha]
        simp
      · rw [if_neg ha, if_neg ha]
        cases ss with
        | nil => simp
        | cons y ys => simp

theorem getLast?_splitAllChar (c : Char) (l : Str) :
    (splitAllChar c l).getLast? = some ((l.reverse.takeWhile (fun x => x ≠ c)).reverse) := by
  induction l using List.reverseRecOn with
  | nil => simp [splitAllChar]
  | append_singleton ys a ih =>
    have hra : (ys ++ [a]).reverse = a :: ys.reverse := by simp
    rw [splitAllChar_snoc, hra]
    by_cases ha : a = c
    · rw [if_pos ha, List.getLast?_concat]
      subst ha
      rw [List.takeWhile_cons_of_neg (by simp)]
      rfl
    · rw [if_neg ha, List.getLast?_concat, List.getLastD_eq_getLast?, ih,
        Option.getD_some, List.takeWhile_cons_of_pos (by simp [ha]), List.reverse_cons]

theorem takeWhile_append_all {q : Char → Bool} {xs : Str} (ys : Str)
    (h : ∀ x ∈ xs, q x = true) :
    (xs ++ ys).takeWhile q = xs ++ ys.takeWhile q := by
  induction xs with
  | nil => simp
  | cons a t ih =>
    rw [List.cons_append, List.takeWhile_cons_of_pos (h a (List.mem_cons_self _ _)),
      ih (fun x hx => h x (List.mem_cons_of_mem _ hx)), List.cons_append]

theorem filter_getLast? {q : Str → Bool} {l : List Str} {x : Str}
    (h : l.getLast? = some x) (hq : q x = true) :
    (l.filter q).getLast? = some x := by
  induction l using List.reverseRecOn with
  | nil => cases h
  | append_singleton ys a ih =>
    rw [List.getLast?_concat] at h
    injection h with h
    subst h
    rw [List.filter_append]
    simp only [List.filter_cons, hq, if_true, List.filter_nil]
    exact List.getLast?_concat _

theorem pathExtension_dotSuffix {suf p : Str}
    (hlen : 2 ≤ suf.length) (hdot : '.' ∉ suf) (hsl : '/' ∉ suf)
    (hsuffix : ('.' :: suf) <:+ p) (hname : fileNameOf p ≠ some ('.' :: suf)) :
    (fileNameOf p).bind extOfName = some suf := by
  obtain ⟨r, rfl⟩ := hsuffix
  have hq1 : ∀ x ∈ suf.reverse, (fun x => decide (x ≠ '/')) x = true := by
    intro x hx
    have : x ∈ suf := List.mem_reverse.mp hx
    simp only [decide_eq_true_eq]
    intro he
    exact hsl (he ▸ this)
  have hrev : (r ++ '.' :: suf).reverse = suf.reverse ++ '.' :: r.reverse := by
    rw [List.reverse_append, List.reverse_cons, List.append_assoc, List.singleton_append]
  have hraw : ((r ++ '.' :: suf).reverse.takeWhile (fun x => x ≠ '/')).reverse =
      (r.reverse.takeWhile (fun x => x ≠ '/')).reverse ++ '.' :: suf := by
    rw [hrev, takeWhile_append_all _ hq1, List.takeWhile_cons_of_pos (by simp),
      List.reverse_append, List.reverse_cons, List.append_assoc, List.singleton_append,
      List.reverse_reverse]
  set tw := r.reverse.takeWhile (fun x => x ≠ '/') with htw
  have hclen : 3 ≤ (tw.reverse ++ '.' :: suf).length := by
    simp only [List.length_append, List.length_cons]
    omega
  have hc1 : (tw.reverse ++ '.' :: suf) ≠ [] := by
    intro h
    rw [h] at hclen
    simp at hclen
  have hc2 : (tw.reverse ++ '.' :: suf) ≠ ['.'] := by
    intro h
    rw [h] at hclen
    simp at hclen
  have hlast : ((splitAllChar '/' (r ++ '.' :: suf)).filter
      (fun s => s ≠ [] ∧ s ≠ ['.'])).getLast? = some (tw.reverse ++ '.' :: suf) := by
    apply filter_getLast?
    · rw [getLast?_splitAllChar, hraw]
    · simp [hc1, hc2]
  have hc3 : (tw.reverse ++ '.' :: suf) ≠ "..".data := by
    intro h
    have h1 : (tw.reverse ++ '.' :: suf).length = ("..".data : Str).length := by rw [h]
    rw [List.length_append, List.length_cons] at h1
    have h2 : ("..".data : Str).length = 2 := rfl
    omega
  have hfn : fileNameOf (r ++ '.' :: suf) = some (tw.reverse ++ '.' :: suf) := by
    simp only [fileNameOf, hlast]
    rw [if_neg hc3]
  have htw_ne : tw ≠ [] := by
    intro h0
    apply hname
    rw [hfn, h0]
    simp
  rw [hfn, Option.some_bind]
  have hq2 : ∀ x ∈ suf.reverse, (fun x => decide (x ≠ '.')) x = true := by
    intro x hx
    have : x ∈ suf := List.mem_reverse.mp hx
    simp only [decide_eq_true_eq]
    intro he
    exact hdot (he ▸ this)
  have hcr : (tw.reverse ++ '.' :: suf).reverse = suf.reverse ++ '.' :: tw := by
    rw [List.reverse_append, List.reverse_cons, List.append_assoc, List.singleton_append,
      List.reverse_reverse]
  have hext : ((tw.reverse ++ '.' :: suf).reverse.takeWhile (fun x => x ≠ '.')).reverse = suf := by
    rw [hcr, takeWhile_append_all _ hq2, List.takeWhile_cons_of_neg (by simp),
      List.append_nil, List.reverse_reverse]
  simp only [extOfName, hext]
  have hlen1 : suf.length ≠ (tw.reverse ++ '.' :: suf).length := by
    simp only [List.length_append, List.length_cons, List.length_reverse]
    omega
  have htwpos : 0 < tw.length := List.length_pos.mpr htw_ne
  have hlen2 : suf.length + 1 ≠ (tw.reverse ++ '.' :: suf).length := by
    simp only [List.length_append, List.length_cons, List.length_reverse]
    omega
  rw [if_neg hlen1, if_neg hlen2]

/-! ## Intermediate characterization of the risk tiers -/

theorem calc_risk_char (c i : Nat) :
    (calculate_risk_level c i = RiskLevel.Low ↔ c + i ≤ 2) ∧
    (calculate_risk_level c i = RiskLevel.Medium ↔ 3 ≤ c + i ∧ c + i ≤ 7) ∧
    (calculate_risk_level c i = RiskLevel.High ↔ 8 ≤ c + i) := by
  unfold calculate_risk_level
  split_ifs with h1 h2
  · exact ⟨iff_of_true rfl h1,
           iff_of_false (by decide) (by omega),
           iff_of_false (by decide) (by omega)⟩
  · exact ⟨iff_of_false (by decide) (by omega),
           iff_of_true rfl (by omega),
           iff_of_false (by decide) (by omega)⟩
  · exact ⟨iff_of_false (by decide) (by omega),
           iff_of_false (by decide) (by omega),
           iff_of_true rfl (by omega)⟩

/-! ## The claims -/

/-- C1: evaluation of the code at the specification scenario.  The spec
requires impacted_files = [b.ts] and risk Low for the workspace
a.ts / b.ts with changed = [a.ts]; the code instead extracts from b.ts a
mangled module specifier (the quote-then-semicolon trim order keeps the
closing quote, and the text after the semicolon is swallowed), resolution
finds no match, and the analysis returns an empty impacted set with risk
Low.  So the scan succeeds but the impact set is empty. -/
theorem claim_C1_code_eval :
    (scan_workspace [] c1Workspace).isOk = true ∧
    analyze_impact (build_edges c1Nodes) ["a.ts".data] =
      { changed_files := ["a.ts".data], impacted_files := [],
        risk_level := RiskLevel.Low } := ⟨rfl, rfl⟩

/-- C2 counterexample: with an unreadable eligible file between two
readable ones, the scan aborts with an error instead of skipping the file
and producing a graph with the readable files. -/
theorem claim_C2_counterexample :
    scan_workspace [] c2Workspace = Except.error () := rfl

/-- C2 (amended): a read failure of an eligible file is propagated by the
question-mark operator and aborts the whole scan with an error, whatever
came before or after the failing entry; the scan does not continue. -/
theorem claim_C2_abort (entries : List (Str × Option Str)) :
    ∀ (acc : List (Str × GraphNode)) (p : Str),
      (p, none) ∈ entries → is_supported_file p = true →
      scan_workspace acc entries = Except.error () := by
  induction entries with
  | nil => intro acc p h; cases h
  | cons e rest ih =>
    intro acc p hmem hsup
    obtain ⟨q, c⟩ := e
    by_cases hq : is_supported_file q
    · simp only [scan_workspace, hq, if_true]
      cases c with
      | none => rfl
      | some content =>
        rcases List.mem_cons.mp hmem with h1 | h1
        · cases h1
        · exact ih _ p h1 hsup
    · simp only [scan_workspace, hq, if_false]
      rcases List.mem_cons.mp hmem with h1 | h1
      · injection h1 with h1a h1b
        subst h1a
        exact absurd hsup (by simp [hq])
      · exact ih _ p h1 hsup

/-- C2 witness: the amended statement at the concrete workspace with the
unreadable b.ts. -/
theorem claim_C2_witness :
    ("b.ts".data, (none : Option Str)) ∈ c2Workspace ∧
    is_supported_file "b.ts".data = true ∧
    scan_workspace [] c2Workspace = Except.error () :=
  ⟨by decide, by decide, claim_C2_abort c2Workspace [] "b.ts".data (by decide) (by decide)⟩

/-- C3 counterexample: the single line "class A = () => b" matches both
the arrow-function family and the class family, so it contributes two
children, refuting mutual exclusivity of the three pattern families. -/
theorem claim_C3_counterexample :
    (parse_simple "class A = () => b".data).children.length = 2 := rfl

/-- C3 (amended): for a line that does not contain both an assignment
token and an arrow token (so the leading-token-free arrow-function branch
cannot fire), at most one of the three pattern families matches and the
line contributes at most one child; lines containing both tokens may
additionally match the class or import family. -/
theorem claim_C3_exclusive (ln : Nat) (l : Str)
    (harrow : ¬(" = ".data <:+: l ∧ " => ".data <:+: l)) :
    (childrenOfLine ln l).length ≤ 1 := by
  unfold childrenOfLine
  cases hf : extract_function_name l with
  | some nf =>
    cases hc : extract_class_name l with
    | some nc => exact (fc_excl harrow hf hc).elim
    | none =>
      cases hi : extract_import_name l with
      | some ni => exact (fi_excl harrow hf hi).elim
      | none => simp
  | none =>
    cases hc : extract_class_name l with
    | some nc =>
      cases hi : extract_import_name l with
      | some ni => exact (ci_excl hc hi).elim
      | none => simp
    | none =>
      cases hi : extract_import_name l with
      | some ni => simp
      | none => simp

/-- C3 witness: the amended statement at a plain function line. -/
theorem claim_C3_witness :
    ¬(" = ".data <:+: "function f()".data ∧ " => ".data <:+: "function f()".data) ∧
    (childrenOfLine 1 "function f()".data).length ≤ 1 :=
  ⟨by decide, claim_C3_exclusive 1 "function f()".data (by decide)⟩

/-- C4: for every text and every extension with a registered scanner,
diffing the parse of the text against the parse of the same text yields
an empty change list. -/
theorem claim_C4_self_diff (content ext : Str) (hext : ext ∈ registeredExtensions) :
    diffNodes (parse_simple content) (parse_simple content) = [] := by
  unfold diffNodes
  exact diffChildrenF_self _ _

/-- C4 witness: the self-diff at a concrete text and the ts extension. -/
theorem claim_C4_witness :
    "ts".data ∈ registeredExtensions ∧
    diffNodes (parse_simple "export function foo()".data)
      (parse_simple "export function foo()".data) = [] :=
  ⟨by decide, claim_C4_self_diff "export function foo()".data "ts".data (by decide)⟩

/-- C5: impact analysis is monotonic in the changed-file set — every file
in the reached set computed for A is in the reached set computed for any
superset B. -/
theorem claim_C5_monotone (edges : List (Str × List Str)) (A B : List Str)
    (hAB : ∀ f ∈ A, f ∈ B) (x : Str) (hx : x ∈ reachedSet edges A) :
    x ∈ reachedSet edges B := by
  rw [mem_reachedSet_iff] at hx ⊢
  exact reach_mono edges hAB x hx

/-- C5 witness: monotonicity at a concrete one-edge graph. -/
theorem claim_C5_witness :
    (∀ f ∈ ["a.ts".data], f ∈ ["a.ts".data, "c.ts".data]) ∧
    "b.ts".data ∈ reachedSet lineEdges ["a.ts".data] ∧
    "b.ts".data ∈ reachedSet lineEdges ["a.ts".data, "c.ts".data] :=
  ⟨by decide, by decide,
   claim_C5_monotone lineEdges ["a.ts".data] ["a.ts".data, "c.ts".data]
     (by decide) "b.ts".data (by decide)⟩

/-- C6: the risk level of an impact analysis is the pure range function
of len(changed) + len(impacted): Low iff the total is at most 2, Medium
iff it lies in [3,7], High iff it is at least 8 — for every graph and
input (the boundary totals 2, 3, 7, 8 are instances). -/
theorem claim_C6_risk_pure (edges : List (Str × List Str)) (changed : List Str) :
    ((analyze_impact edges changed).risk_level = RiskLevel.Low ↔
      changed.length + (analyze_impact edges changed).impacted_files.length ≤ 2) ∧
    ((analyze_impact edges changed).risk_level = RiskLevel.Medium ↔
      3 ≤ changed.length + (analyze_impact edges changed).impacted_files.length ∧
      changed.length + (analyze_impact edges changed).impacted_files.length ≤ 7) ∧
    ((analyze_impact edges changed).risk_level = RiskLevel.High ↔
      8 ≤ changed.length + (analyze_impact edges changed).impacted_files.length) := by
  have hr : (analyze_impact edges changed).risk_level =
      calculate_risk_level changed.length
        (analyze_impact edges changed).impacted_files.length := rfl
  rw [hr]
  exact calc_risk_char _ _

/-- C7: no member of the input changed-file list ever appears in
impacted_files, even in the presence of dependency cycles: the result is
filtered against the changed list. -/
theorem claim_C7_changed_excluded (edges : List (Str × List Str)) (changed : List Str)
    (x : Str) (hx : x ∈ changed) :
    x ∉ (analyze_impact edges changed).impacted_files := by
  intro hmem
  have h2 : x ∈ (reachedSet edges changed).filter (fun f => f ∉ changed) := hmem
  rcases List.mem_filter.mp h2 with ⟨_, hdec⟩
  exact (of_decide_eq_true hdec) hx

/-- C7 witness: a changed file on a two-cycle is reachable back from
itself yet excluded from impacted_files. -/
theorem claim_C7_witness :
    "a.ts".data ∈ ["a.ts".data] ∧
    "a.ts".data ∉ (analyze_impact cycleEdges ["a.ts".data]).impacted_files :=
  ⟨by decide, claim_C7_changed_excluded cycleEdges ["a.ts".data] "a.ts".data (by decide)⟩

/-- C8 counterexample: the path ".ts" ends in ".ts", yet its file name
begins with a dot and has no other dot, so std Path::extension yields
none, the extension defaults to "" and the diff request fails — refuting
"paths ending in .ts never fail". -/
theorem claim_C8_counterexample :
    (".ts".data <:+ ".ts".data) ∧ (compute_diff ".ts".data [] []).isOk = false :=
  ⟨by decide, rfl⟩

/-- C8 (amended): a diff request fails iff the extracted extension has no
registered scanner; a path whose extension extraction yields the empty
extension always fails; and a path ending in a dot followed by a
registered extension never fails unless its file name is exactly that
dotted extension (a dot-initial file name such as ".ts", which has no
extension). -/
theorem claim_C8_extension (p o n : Str) :
    ((compute_diff p o n).isOk = true ↔ pathExtension p ∈ registeredExtensions) ∧
    (pathExtension p = [] → (compute_diff p o n).isOk = false) ∧
    (∀ suf, suf ∈ registeredExtensions → ('.' :: suf) <:+ p →
      fileNameOf p ≠ some ('.' :: suf) → (compute_diff p o n).isOk = true) := by
  have hiff : (compute_diff p o n).isOk = true ↔ pathExtension p ∈ registeredExtensions := by
    unfold compute_diff
    by_cases h : pathExtension p ∈ registeredExtensions
    · rw [if_pos h]
      exact iff_of_true rfl h
    · rw [if_neg h]
      exact iff_of_false (by simp [Except.isOk, Except.toBool]) h
  refine ⟨hiff, ?_, ?_⟩
  · intro h0
    cases hok : (compute_diff p o n).isOk
    · rfl
    · have := hiff.mp hok
      rw [h0] at this
      exact absurd this (by decide)
  · intro suf hsuf hdotsuf hname
    have hprops : 2 ≤ suf.length ∧ '.' ∉ suf ∧ '/' ∉ suf := by
      have h4 : suf = "ts".data ∨ suf = "js".data ∨ suf = "tsx".data ∨ suf = "jsx".data := by
        simpa [registeredExtensions] using hsuf
      rcases h4 with rfl | rfl | rfl | rfl <;> exact ⟨by decide, by decide, by decide⟩
    have hbind := pathExtension_dotSuffix hprops.1 hprops.2.1 hprops.2.2 hdotsuf hname
    have hext : pathExtension p = suf := by
      unfold pathExtension
      rw [hbind]
      rfl
    exact hiff.mpr (hext ▸ hsuf)

/-- C8 witness: the amended statement gives success at the path "a.ts". -/
theorem claim_C8_witness : (compute_diff "a.ts".data [] []).isOk = true :=
  (claim_C8_extension "a.ts".data [] []).2.2 "ts".data (by decide) (by decide) (by decide)

/-- C9 counterexample: with an empty graph (zero nodes) and one changed
file, the queue is not emptied within |nodes| = 0 pop steps, refuting the
claimed bound of at most |nodes| pops. -/
theorem claim_C9_counterexample :
    (bfsAux ([] : List (Str × List Str)) (List.length ([] : List (Str × List Str)))
      ["a.ts".data] (seedReached ["a.ts".data])).2 = false := rfl

/-- C9 (amended): the BFS loop terminates — the queue empties within
len(changed) + |edge entries| pop steps (the fuel analyze_impact runs the
loop with), for every graph and every input list. -/
theorem claim_C9_terminates (edges : List (Str × List Str)) (changed : List Str) :
    (bfsAux edges (changed.length + edges.length) changed (seedReached changed)).2 = true :=
  reachedSet_empties edges changed

/-- C10: every file in impacted_files is a key of the edges map — a file
registered during the scan; changed files that are not graph nodes and
arbitrary other strings can never appear there. -/
theorem claim_C10_impacted_are_nodes (edges : List (Str × List Str)) (changed : List Str)
    (x : Str) (hx : x ∈ (analyze_impact edges changed).impacted_files) :
    ∃ deps, (x, deps) ∈ edges := by
  have hx2 : x ∈ (reachedSet edges changed).filter (fun f => f ∉ changed) := hx
  rcases List.mem_filter.mp hx2 with ⟨hreach, hdec⟩
  have hnc : x ∉ changed := of_decide_eq_true hdec
  have hsrc := bfsAux_fst_keys edges changed _ _ _
    (fun y hy => Or.inl (mem_seedReached.mp hy)) x hreach
  rcases hsrc with h | h
  · exact absurd h hnc
  · rcases List.mem_map.mp h with ⟨⟨k, deps⟩, hm, hk⟩
    exact ⟨deps, by rw [show k = x from hk] at hm; exact hm⟩

/-- C10 witness: the only impacted file of the one-edge graph is its edge
key b.ts. -/
theorem claim_C10_witness :
    "b.ts".data ∈ (analyze_impact lineEdges ["a.ts".data]).impacted_files ∧
    ∃ deps, ("b.ts".data, deps) ∈ lineEdges :=
  ⟨by decide,
   claim_C10_impacted_are_nodes lineEdges ["a.ts".data] "b.ts".data (by decide)⟩
